import Mathlib

/-!
Verification of the cloudflare-helper library (src/src/cloudflare-helper.ts and
src/src/cloudflare-base.ts) against its specification.

The development is a shallow embedding of the two helper classes:

* `CFCacheResponse` (the cache helper): `buildCacheKey`, `updateHeaders`,
  `match`, `put`, `delete`.  JavaScript `URL` objects are represented by
  their string form; `urlOrigin` models `URL.origin`, and `resolveURL`
  models relative-reference resolution by `new URL(rel, base)`.  The
  Cloudflare default cache is modelled as an association list from cache-key
  URL strings to stored responses; `put`'s deferred `waitUntil` write is
  modelled as the completed write (the claims about `put`/`match` speak
  about the state after the deferred write has finished).

* `CFR2` (the R2 bucket helper): `validateBucketName`, `validateMetadata`,
  `getBucket`, `createUniqueKey`, `setHttpMetadata`, `setCustomMetadata`
  and the pagination loop of `listBucketData`.  JavaScript strings that are
  processed character by character (`split`, `JSON.stringify` sizes) are
  modelled as `List Char`; an R2 bucket binding is modelled by the pages its
  `list` operation yields: the initial page and a page for each cursor.
  Nondeterministic platform inputs (`Date.now()`, `crypto.randomUUID()`,
  `new Date().toISOString()`) are passed as explicit parameters.
-/

namespace CFH

/-! ### Requests, responses, URLs -/

/-- Model of a fetch-API `Request` as used by the cache helper: its method
and its URL (in string form).  `new Request(url, request)` is modelled as
keeping the method and replacing the URL. -/
structure Request where
  method : String
  url : String
deriving DecidableEq, Repr

/-- Model of a fetch-API `Response`: body, status, status text and header
list (in insertion order). -/
structure Response where
  body : String
  status : Nat
  statusText : String
  headers : List (String × String)
deriving DecidableEq, Repr

/-- Splits a URL string right after the `://` scheme separator, returning
the `scheme://` part and the remainder; `none` when no `://` occurs. -/
def schemeSplit : List Char → Option (List Char × List Char)
  | ':' :: '/' :: '/' :: rest => some ([':', '/', '/'], rest)
  | c :: rest =>
    match schemeSplit rest with
    | some (pre, r) => some (c :: pre, r)
    | none => none
  | [] => none

/-- Model of `URL.origin` for a hierarchical URL string: the scheme plus the
authority (everything up to the first `/` after `://`).  For a string with
no `://` the whole string is returned. -/
def urlOrigin (s : String) : String :=
  match schemeSplit s.toList with
  | some (pre, rest) => ⟨pre ++ rest.takeWhile (· != '/')⟩
  | none => s

/-- Model of WHATWG relative-reference resolution `new URL(rel, base)` for
the two basic shapes the helper meets: a root-relative reference (starting
with `/`) is attached to the base URL origin, any other reference replaces
the last path segment of the base URL. -/
def resolveURL (rel : String) (base : String) : String :=
  match rel.toList with
  | '/' :: _ => urlOrigin base ++ rel
  | _ => (⟨(base.toList.reverse.dropWhile (· != '/')).reverse⟩ : String) ++ rel

/-- In JavaScript an object value is never falsy: the truthiness tests
`if (!cacheKey)` and `if (hit)` applied to a `Request`/`Response` object
always see a truthy value. -/
def jsFalsyRequest (_ : Request) : Bool := false

/-! ### CFCacheResponse.buildCacheKey -/

/-- Applies the optional `normalizeKey` callback, as `buildCacheKey` does:
`normalizeKey ? normalizeKey(cacheURL) : cacheURL`. -/
def applyNormalize (normalizeKey : Option (String → String)) (u : String) : String :=
  match normalizeKey with
  | some f => f u
  | none => u

/-- Embedding of `CFCacheResponse.buildCacheKey`: non-GET/HEAD requests are
returned unchanged; otherwise the URL is normalized, the origin is checked
against the original origin (throwing on mismatch), and a request cloned
from the original but addressed at the normalized URL is returned. -/
def buildCacheKey (request : Request) (normalizeKey : Option (String → String)) :
    Except String Request :=
  if request.method ≠ "GET" ∧ request.method ≠ "HEAD" then
    .ok request
  else
    let cacheURL := request.url
    let normalizedURL := applyNormalize normalizeKey cacheURL
    if urlOrigin cacheURL ≠ urlOrigin normalizedURL then
      .error "Cache key origin must match request origin"
    else
      .ok { method := request.method, url := normalizedURL }

/-! ### Headers and the cache store -/

/-- Model of `Headers.set`: replaces the entry for the given name or appends
a new one (a header list built by `set` holds at most one entry per name). -/
def headersSet (hs : List (String × String)) (k v : String) : List (String × String) :=
  match hs with
  | [] => [(k, v)]
  | p :: t => if p.1 == k then (k, v) :: t else p :: headersSet t k v

/-- Model of `Headers.get`: the first entry with the given name, if any. -/
def headerGet (hs : List (String × String)) (k : String) : Option String :=
  match hs with
  | [] => none
  | p :: t => if p.1 == k then some p.2 else headerGet t k

/-- Embedding of `CFCacheResponse.updateHeaders`: a new response with the
same body/status/statusText and every given header set on a copy of the
original header list. -/
def updateHeaders (response : Response) (headers : List (String × String)) : Response :=
  { response with
      headers := headers.foldl (fun acc p => headersSet acc p.1 p.2) response.headers }

/-- The Cloudflare default cache, modelled as an association list from
cache-key URL strings to the stored responses (most recent entry first). -/
abbrev CacheStore := List (String × Response)

/-- Model of `cache.match`: the most recently stored response under the key,
if any. -/
def cacheMatch (c : CacheStore) (k : String) : Option Response :=
  match c with
  | [] => none
  | p :: t => if p.1 == k then some p.2 else cacheMatch t k

/-- Model of `cache.put`: stores the response under the key (shadowing any
previous entry). -/
def cachePut (c : CacheStore) (k : String) (r : Response) : CacheStore :=
  (k, r) :: c

/-- Whether the cache holds an entry for the key; `cache.delete` reports
this value. -/
def cacheHas (c : CacheStore) (k : String) : Bool :=
  (cacheMatch c k).isSome

/-- Model of the state change of `cache.delete`: every entry under the key
is removed. -/
def cacheDeleteStore (c : CacheStore) (k : String) : CacheStore :=
  c.filter (fun p => p.1 != k)

/-! ### CFCacheResponse cache options and methods -/

/-- Embedding of `CloudflareHelper.CacheOptions`. -/
structure CacheOptions where
  normalizeKey : Option (String → String) := none
  headers : Option (List (String × String)) := none
  baseRequest : Option Request := none
  method : Option String := none
  debug : Bool := false

/-- Embedding of `CFCacheResponse.match`: builds the cache key, queries the
cache, and on a hit returns the cached response with `x-cache: HIT` set via
`updateHeaders`; on a miss returns `none`. -/
def matchCached (cache : CacheStore) (request : Request) (opts : CacheOptions) :
    Except String (Option Response) :=
  match buildCacheKey request opts.normalizeKey with
  | .error e => .error e
  | .ok cacheKey =>
    if jsFalsyRequest cacheKey then .ok none
    else
      match cacheMatch cache cacheKey.url with
      | some hit => .ok (some (updateHeaders hit [("x-cache", "HIT")]))
      | none => .ok none

/-- Embedding of `CFCacheResponse.put`, with the `waitUntil`-deferred cache
write modelled as completed: builds the cache key (the falsy guard throws
`Invalid cache key`), optionally rewrites the response headers, stores a
clone of the response, and returns the new cache state together with the
(possibly rewritten) response. -/
def put (cache : CacheStore) (request : Request) (response : Response)
    (opts : CacheOptions) : Except String (CacheStore × Response) :=
  match buildCacheKey request opts.normalizeKey with
  | .error e => .error e
  | .ok cacheKey =>
    if jsFalsyRequest cacheKey then .error "Invalid cache key"
    else
      let response2 := match opts.headers with
        | some hs => updateHeaders response hs
        | none => response
      .ok (cachePut cache cacheKey.url response2, response2)

/-- The argument of `CFCacheResponse.delete`: a `Request`, a `URL` object
(represented by its string form) or a raw string. -/
inductive DeleteTarget where
  | request (r : Request)
  | url (u : String)
  | str (s : String)

/-- The URL string `delete` extracts from its argument. -/
def targetUrl : DeleteTarget → String
  | .request r => r.url
  | .url u => u
  | .str s => s

/-- Model of the case-insensitive test against `^https?:\/\//`. -/
def isAbsoluteHttp (s : String) : Bool :=
  let l := s.toList.map Char.toLower
  List.isPrefixOf "http://".toList l || List.isPrefixOf "https://".toList l

/-- The tail of `CFCacheResponse.delete` once an absolute URL string is in
hand: builds the lookup request with method `options.method ?? "GET"`,
builds its cache key, deletes the entry and reports whether one existed. -/
def deleteResolved (cache : CacheStore) (u : String) (opts : CacheOptions) :
    Except String (CacheStore × Bool) :=
  let method := opts.method.getD "GET"
  let deleteRequest : Request := { method := method, url := u }
  match buildCacheKey deleteRequest opts.normalizeKey with
  | .error e => .error e
  | .ok cacheKey =>
    .ok (cacheDeleteStore cache cacheKey.url, cacheHas cache cacheKey.url)

/-- Embedding of `CFCacheResponse.delete`: extracts the URL string from the
argument; a non-absolute URL requires `options.baseRequest` to resolve
against (else the `Base URL is required` error); then proceeds as
`deleteResolved`. -/
def deleteCached (cache : CacheStore) (target : DeleteTarget) (opts : CacheOptions) :
    Except String (CacheStore × Bool) :=
  let deleteRequestUrl := targetUrl target
  if isAbsoluteHttp deleteRequestUrl then
    deleteResolved cache deleteRequestUrl opts
  else
    match opts.baseRequest with
    | some br => deleteResolved cache (resolveURL deleteRequestUrl br.url) opts
    | none => .error "Base URL is required for relative delete URL"

end CFH

namespace CFH

/-! ### Helper lemmas for the cache helper -/

/-- With no normalizer, `buildCacheKey` returns the request unchanged. -/
theorem buildCacheKey_none (r : Request) : buildCacheKey r none = .ok r := by
  by_cases h : r.method ≠ "GET" ∧ r.method ≠ "HEAD"
  · simp [buildCacheKey, h]
  · simp [buildCacheKey, h, applyNormalize]

/-- The only error `buildCacheKey` can raise is the origin-mismatch error. -/
theorem buildCacheKey_error_eq (r : Request) (nk : Option (String → String)) (e : String)
    (h : buildCacheKey r nk = .error e) :
    e = "Cache key origin must match request origin" := by
  by_cases hc : r.method ≠ "GET" ∧ r.method ≠ "HEAD"
  · simp [buildCacheKey, hc] at h
  · simp only [buildCacheKey, if_neg hc] at h
    by_cases ho : urlOrigin r.url ≠ urlOrigin (applyNormalize nk r.url)
    · rw [if_pos ho] at h
      exact (Except.error.injEq _ _ ▸ h).symm
    · rw [if_neg ho] at h
      cases h

/-- The most recently `put` response is found under its key. -/
theorem cacheMatch_cachePut_self (c : CacheStore) (k : String) (r : Response) :
    cacheMatch (cachePut c k r) k = some r := by
  simp [cacheMatch, cachePut]

/-- `Headers.get` after `Headers.set` of the same name sees the set value. -/
theorem headerGet_headersSet (hs : List (String × String)) (k v : String) :
    headerGet (headersSet hs k v) k = some v := by
  induction hs with
  | nil => simp [headersSet, headerGet]
  | cons p t ih =>
    by_cases h : p.1 == k
    · simp [headersSet, h, headerGet]
    · simp [headersSet, h, headerGet, ih]

end CFH

namespace CFH

/-! ### Claim C3: the origin check of buildCacheKey -/

/-- C3. For every GET or HEAD request and every optional normalizer,
`buildCacheKey` raises the origin-validation error exactly when the
normalized URL origin differs from the original request URL origin;
otherwise it returns a request addressed at the normalized URL, and with no
normalizer the URL is unchanged. -/
theorem buildCacheKey_origin_check (request : Request)
    (normalizeKey : Option (String → String))
    (hmeth : request.method = "GET" ∨ request.method = "HEAD") :
    (urlOrigin (applyNormalize normalizeKey request.url) ≠ urlOrigin request.url →
      buildCacheKey request normalizeKey =
        .error "Cache key origin must match request origin")
    ∧ (urlOrigin (applyNormalize normalizeKey request.url) = urlOrigin request.url →
      buildCacheKey request normalizeKey =
        .ok { method := request.method, url := applyNormalize normalizeKey request.url })
    ∧ (normalizeKey = none → buildCacheKey request normalizeKey = .ok request) := by
  have hcond : ¬ (request.method ≠ "GET" ∧ request.method ≠ "HEAD") := by
    rcases hmeth with h | h <;> simp [h]
  refine ⟨fun hne => ?_, fun heq => ?_, fun hnk => ?_⟩
  · simp only [buildCacheKey, if_neg hcond]
    exact if_pos fun hor => hne hor.symm
  · simp only [buildCacheKey, if_neg hcond]
    rw [if_neg fun hor => hor heq.symm]
  · subst hnk
    exact buildCacheKey_none request

/-- Witness for C3: a path-changing origin-preserving normalizer yields a
request at the normalized URL; an origin-changing normalizer raises the
validation error. -/
theorem buildCacheKey_origin_check_witness :
    buildCacheKey ⟨"GET", "https://h.com/a?x=1"⟩ (some fun _ => "https://h.com/b")
      = .ok ⟨"GET", "https://h.com/b"⟩
    ∧ buildCacheKey ⟨"GET", "https://h.com/a"⟩ (some fun _ => "https://evil.com/a")
      = .error "Cache key origin must match request origin" :=
  ⟨(buildCacheKey_origin_check ⟨"GET", "https://h.com/a?x=1"⟩
      (some fun _ => "https://h.com/b") (Or.inl rfl)).2.1 (by decide),
   (buildCacheKey_origin_check ⟨"GET", "https://h.com/a"⟩
      (some fun _ => "https://evil.com/a") (Or.inl rfl)).1 (by decide)⟩

/-! ### Claim C8: buildCacheKey bypass for non-GET/HEAD requests -/

/-- C8. For every request whose method is neither GET nor HEAD,
`buildCacheKey` returns the original request unmodified, whatever the
normalizer. -/
theorem buildCacheKey_bypass (request : Request)
    (normalizeKey : Option (String → String))
    (h1 : request.method ≠ "GET") (h2 : request.method ≠ "HEAD") :
    buildCacheKey request normalizeKey = .ok request := by
  simp [buildCacheKey, h1, h2]

/-- Witness for C8: a POST request passes through unchanged even under an
origin-changing normalizer. -/
theorem buildCacheKey_bypass_witness :
    buildCacheKey ⟨"POST", "https://h.com/a"⟩ (some fun _ => "https://evil.com/x")
      = .ok ⟨"POST", "https://h.com/a"⟩ :=
  buildCacheKey_bypass ⟨"POST", "https://h.com/a"⟩
    (some fun _ => "https://evil.com/x") (by decide) (by decide)

/-! ### Claim C10: the falsy-cache-key guard in put is unreachable -/

/-- C10. `put` can only fail by propagating the origin-validation error of
`buildCacheKey`: the guard throwing `Invalid cache key` on a falsy built key
is unreachable, since `buildCacheKey` always either throws or returns a
(never-falsy) request object. -/
theorem put_invalid_key_unreachable (cache : CacheStore) (request : Request)
    (response : Response) (opts : CacheOptions) :
    put cache request response opts ≠ .error "Invalid cache key"
    ∧ ∀ e, put cache request response opts = .error e →
        e = "Cache key origin must match request origin" := by
  have h2 : ∀ e, put cache request response opts = .error e →
      e = "Cache key origin must match request origin" := by
    intro e he
    rcases hk : buildCacheKey request opts.normalizeKey with e' | key
    · rw [put, hk] at he
      cases he
      exact buildCacheKey_error_eq request opts.normalizeKey e hk
    · rw [put, hk] at he
      simp [jsFalsyRequest] at he
  refine ⟨fun h => ?_, h2⟩
  have := h2 _ h
  simp at this

/-- Witness for C10: a cross-origin normalizer makes `put` fail with the
origin error, never with `Invalid cache key`. -/
theorem put_invalid_key_unreachable_witness :
    put [] ⟨"GET", "https://h.com/a"⟩ ⟨"hello", 200, "OK", []⟩
        { normalizeKey := some fun _ => "https://evil.com/a" }
      = .error "Cache key origin must match request origin"
    ∧ put [] ⟨"GET", "https://h.com/a"⟩ ⟨"hello", 200, "OK", []⟩
        { normalizeKey := some fun _ => "https://evil.com/a" }
      ≠ .error "Invalid cache key" :=
  ⟨by rfl,
   (put_invalid_key_unreachable [] ⟨"GET", "https://h.com/a"⟩ ⟨"hello", 200, "OK", []⟩
      { normalizeKey := some fun _ => "https://evil.com/a" }).1⟩

end CFH

namespace CFH

/-! ### Claim C2: match after put -/

/-- C2. After `put` for a GET/HEAD request has completed its deferred cache
write, `match` with the same normalization options returns a response
carrying `x-cache: HIT`; and `match` for a request whose cache key was never
stored returns `none`. -/
theorem match_after_put (cache cache2 : CacheStore) (request : Request)
    (response response2 : Response) (opts : CacheOptions)
    (_hmeth : request.method = "GET" ∨ request.method = "HEAD")
    (hput : put cache request response opts = .ok (cache2, response2)) :
    (∃ hit, matchCached cache2 request opts = .ok (some hit)
        ∧ headerGet hit.headers "x-cache" = some "HIT")
    ∧ (∀ (c0 : CacheStore) (key : Request),
        buildCacheKey request opts.normalizeKey = .ok key →
        cacheMatch c0 key.url = none →
        matchCached c0 request opts = .ok none) := by
  constructor
  · rcases hk : buildCacheKey request opts.normalizeKey with e | key
    · rw [put, hk] at hput
      cases hput
    · rw [put, hk] at hput
      simp only [jsFalsyRequest, if_false, Bool.false_eq_true] at hput
      have hc2 : cachePut cache key.url response2 = cache2 := by
        rcases hh : opts.headers with _ | hs <;>
          · rw [hh] at hput
            simp only [Except.ok.injEq, Prod.mk.injEq] at hput
            rw [← hput.2]
            exact hput.1
      refine ⟨updateHeaders response2 [("x-cache", "HIT")], ?_, ?_⟩
      · rw [matchCached, hk]
        simp only [jsFalsyRequest, if_false, Bool.false_eq_true]
        rw [← hc2, cacheMatch_cachePut_self]
      · simpa [updateHeaders] using
          headerGet_headersSet response2.headers "x-cache" "HIT"
  · intro c0 key hkey hmiss
    rw [matchCached, hkey]
    simp only [jsFalsyRequest, if_false, Bool.false_eq_true]
    rw [hmiss]

/-- Witness for C2: a concrete GET request stored by `put` is found by
`match` with `x-cache: HIT`, and an unstored key misses. -/
theorem match_after_put_witness :
    (∃ hit, matchCached [("https://h.com/a", ⟨"hello", 200, "OK", []⟩)]
        ⟨"GET", "https://h.com/a"⟩ {} = .ok (some hit)
        ∧ headerGet hit.headers "x-cache" = some "HIT")
    ∧ matchCached [] ⟨"GET", "https://h.com/a"⟩ {} = .ok none := by
  have h := match_after_put [] [("https://h.com/a", ⟨"hello", 200, "OK", []⟩)]
    ⟨"GET", "https://h.com/a"⟩ ⟨"hello", 200, "OK", []⟩ ⟨"hello", 200, "OK", []⟩ {}
    (Or.inl rfl) (by rfl)
  exact ⟨h.1, h.2 [] ⟨"GET", "https://h.com/a"⟩ (by rfl) (by rfl)⟩

/-! ### Claim C5: delete and URL resolution -/

/-- C5. `delete` uses an absolute target URL as-is with no need for a base
request; a relative target with no `baseRequest` raises the base-URL error
without touching the cache; a relative target with a `baseRequest` resolves
against its URL, deletes the derived cache key and reports whether an entry
was removed. -/
theorem deleteCached_resolution (cache : CacheStore) (target : DeleteTarget)
    (opts : CacheOptions) :
    (isAbsoluteHttp (targetUrl target) = true →
      deleteCached cache target opts = deleteResolved cache (targetUrl target) opts
      ∧ ∀ br, deleteCached cache target { opts with baseRequest := br }
            = deleteCached cache target { opts with baseRequest := none })
    ∧ (isAbsoluteHttp (targetUrl target) = false → opts.baseRequest = none →
      deleteCached cache target opts = .error "Base URL is required for relative delete URL")
    ∧ (∀ br, isAbsoluteHttp (targetUrl target) = false → opts.baseRequest = some br →
      opts.normalizeKey = none →
      deleteCached cache target opts =
        .ok (cacheDeleteStore cache (resolveURL (targetUrl target) br.url),
             cacheHas cache (resolveURL (targetUrl target) br.url))) := by
  refine ⟨fun habs => ⟨?_, fun br => ?_⟩, fun habs hbase => ?_, fun br habs hbase hnorm => ?_⟩
  · rw [deleteCached, if_pos habs]
  · rw [deleteCached, if_pos habs, deleteCached, if_pos habs]
    rfl
  · rw [deleteCached, if_neg (by simp [habs]), hbase]
  · rw [deleteCached, if_neg (by simp [habs]), hbase]
    simp only [deleteResolved, hnorm, buildCacheKey_none]

/-- Witness for C5: a relative target with a base request resolves and
deletes; a relative target without a base errors; an absolute target needs
no base. -/
theorem deleteCached_resolution_witness :
    deleteCached [("https://h.com/img", ⟨"hello", 200, "OK", []⟩)] (.str "/img")
        { baseRequest := some ⟨"GET", "https://h.com/base"⟩ } = .ok ([], true)
    ∧ deleteCached [] (.str "/img") {} = .error "Base URL is required for relative delete URL"
    ∧ deleteCached [] (.str "https://h.com/img") {}
        = deleteResolved [] "https://h.com/img" {} := by
  refine ⟨?_, ?_, ?_⟩
  · have h := (deleteCached_resolution [("https://h.com/img", ⟨"hello", 200, "OK", []⟩)]
      (.str "/img") { baseRequest := some ⟨"GET", "https://h.com/base"⟩ }).2.2
      ⟨"GET", "https://h.com/base"⟩ (by decide) rfl rfl
    exact h.trans (by rfl)
  · exact (deleteCached_resolution [] (.str "/img") {}).2.1 (by decide) rfl
  · exact ((deleteCached_resolution [] (.str "https://h.com/img") {}).1 (by decide)).1

end CFH

namespace CFH

/-! ### The R2 helper: JavaScript strings as character lists

String routines of `CFR2` that work character by character
(`split('.')`, `join('.')`, `JSON.stringify` sizes) are modelled over
`List Char`. -/

/-- A JavaScript string, as a list of its characters. -/
abbrev JStr := List Char

/-- The characters of a string literal. -/
def jstr (s : String) : JStr := s.toList

/-- Model of `String.prototype.split('.')`: the maximal `.`-free segments,
including empty ones (`"".split('.')` is `[""]`, `"a.".split('.')` is
`["a", ""]`). -/
def splitDots : JStr → List JStr
  | [] => [[]]
  | c :: cs =>
    if c = '.' then [] :: splitDots cs
    else
      match splitDots cs with
      | [] => [[c]]
      | r :: rs => (c :: r) :: rs

/-- Model of `Array.prototype.join('.')`. -/
def joinDots : List JStr → JStr
  | [] => []
  | [x] => x
  | x :: xs => x ++ '.' :: joinDots xs

/-- Model of `Number.prototype.toString()` for a timestamp. -/
def natChars (n : Nat) : JStr := Nat.toDigits 10 n

/-- Embedding of `CFR2.createUniqueKey`.  `Date.now()` and
`crypto.randomUUID()` are nondeterministic platform inputs, passed here as
the `timestamp` and `uuid` parameters.  The extension is
`file.name.split('.').pop() || 'jpg'` (the `jpg` fallback fires exactly when
the popped segment is the empty string), the base name is
`split('.').slice(0, -1).join('.')`, and the key part is the base name or
`uuid.substring(0, 8)`. -/
def createUniqueKey (fileName : JStr) (useFileName : Bool) (timestamp : Nat)
    (uuid : JStr) : JStr :=
  let ext0 := (splitDots fileName).getLastD []
  let extension := if ext0 = [] then jstr "jpg" else ext0
  let name := joinDots (splitDots fileName).dropLast
  let keyPart := if useFileName then name else uuid.take 8
  natChars timestamp ++ '-' :: (keyPart ++ '.' :: extension)

/-- The segment of a name after its last `.` (the whole name when it has no
`.`). -/
def afterLastDot : JStr → JStr
  | [] => []
  | c :: cs =>
    if '.' ∈ cs then afterLastDot cs
    else if c = '.' then cs
    else c :: cs

/-- The part of a name before its last `.` (empty when it has no `.`). -/
def beforeLastDot : JStr → JStr
  | [] => []
  | c :: cs => if '.' ∈ cs then c :: beforeLastDot cs else []

/-- `splitDots` never yields the empty list of segments. -/
theorem splitDots_ne_nil (s : JStr) : splitDots s ≠ [] := by
  match s with
  | [] => simp [splitDots]
  | c :: cs =>
    by_cases h : c = '.'
    · simp [splitDots, h]
    · have := splitDots_ne_nil cs
      rcases hs : splitDots cs with _ | ⟨r, rs⟩
      · exact absurd hs this
      · simp [splitDots, h, hs]

/-- A name contains a dot exactly when it splits into at least two
segments. -/
theorem dot_mem_iff_splitDots (s : JStr) :
    '.' ∈ s ↔ 2 ≤ (splitDots s).length := by
  match s with
  | [] => simp [splitDots]
  | c :: cs =>
    by_cases h : c = '.'
    · subst h
      have h1 : splitDots cs ≠ [] := splitDots_ne_nil cs
      have : 1 ≤ (splitDots cs).length := by
        cases hs : splitDots cs
        · exact absurd hs h1
        · simp
      simp [splitDots]
      omega
    · rcases hs : splitDots cs with _ | ⟨r, rs⟩
      · exact absurd hs (splitDots_ne_nil cs)
      · have ih := dot_mem_iff_splitDots cs
        rw [hs] at ih
        simp [splitDots, h, hs, List.mem_cons, Ne.symm h, ih]

/-- A name with no dot is its own last segment. -/
theorem afterLastDot_of_not_mem (s : JStr) (h : '.' ∉ s) : afterLastDot s = s := by
  match s with
  | [] => simp [afterLastDot]
  | c :: cs =>
    have hc : ¬ c = '.' := fun hc => h (hc ▸ List.mem_cons_self c cs)
    have hcs : '.' ∉ cs := fun hm => h (List.mem_cons_of_mem c hm)
    simp [afterLastDot, hcs, hc]

end CFH

namespace CFH

/-- `split('.').pop()` is the segment after the last dot. -/
theorem splitDots_getLastD (s : JStr) :
    (splitDots s).getLastD [] = afterLastDot s := by
  match s with
  | [] => simp [splitDots, afterLastDot]
  | c :: cs =>
    have ih := splitDots_getLastD cs
    by_cases h : c = '.'
    · subst h
      rw [show splitDots ('.' :: cs) = [] :: splitDots cs from by simp [splitDots],
        List.getLastD_cons, ih]
      by_cases hm : '.' ∈ cs
      · simp [afterLastDot, hm]
      · simp [afterLastDot, hm, afterLastDot_of_not_mem cs hm]
    · rcases hs : splitDots cs with _ | ⟨r, rs⟩
      · exact absurd hs (splitDots_ne_nil cs)
      · rw [show splitDots (c :: cs) = (c :: r) :: rs from by simp [splitDots, h, hs]]
        rcases rs with _ | ⟨r2, rs2⟩
        · have hm : '.' ∉ cs := by
            rw [dot_mem_iff_splitDots, hs]
            simp
          rw [hs] at ih
          rw [afterLastDot_of_not_mem cs hm] at ih
          have hr : r = cs := by simpa using ih
          subst hr
          simp [afterLastDot, hm, h]
        · have hm : '.' ∈ cs := by
            rw [dot_mem_iff_splitDots, hs]
            simp
          have hstep : ((c :: r) :: r2 :: rs2).getLastD [] = (r :: r2 :: rs2).getLastD [] := by
            simp [List.getLastD_cons]
          rw [hstep, ← hs, ih]
          simp [afterLastDot, hm]

/-- Prepending a character to the first segment prepends it to the join. -/
theorem joinDots_cons_first (c : Char) (r : JStr) (t : List JStr) :
    joinDots ((c :: r) :: t) = c :: joinDots (r :: t) := by
  cases t <;> rfl

/-- `split('.').slice(0, -1).join('.')` is the part before the last dot. -/
theorem joinDots_dropLast_splitDots (s : JStr) :
    joinDots (splitDots s).dropLast = beforeLastDot s := by
  match s with
  | [] => simp [splitDots, joinDots, beforeLastDot]
  | c :: cs =>
    have ih := joinDots_dropLast_splitDots cs
    by_cases h : c = '.'
    · subst h
      rw [show splitDots ('.' :: cs) = [] :: splitDots cs from by simp [splitDots]]
      rcases hs : splitDots cs with _ | ⟨x, xs⟩
      · exact absurd hs (splitDots_ne_nil cs)
      · rcases xs with _ | ⟨y, ys⟩
        · have hm : '.' ∉ cs := by
            rw [dot_mem_iff_splitDots, hs]
            simp
          simp [joinDots, beforeLastDot, hm]
        · have hm : '.' ∈ cs := by
            rw [dot_mem_iff_splitDots, hs]
            simp
          rw [hs] at ih
          rw [show ([] :: x :: y :: ys).dropLast = [] :: (x :: y :: ys).dropLast from rfl]
          have hne : (x :: y :: ys).dropLast = x :: (y :: ys).dropLast := rfl
          rw [hne] at ih ⊢
          simp only [joinDots, List.nil_append]
          rw [ih]
          simp [beforeLastDot, hm]
    · rcases hs : splitDots cs with _ | ⟨r, rs⟩
      · exact absurd hs (splitDots_ne_nil cs)
      · rw [show splitDots (c :: cs) = (c :: r) :: rs from by simp [splitDots, h, hs]]
        rcases rs with _ | ⟨r2, rs2⟩
        · have hm : '.' ∉ cs := by
            rw [dot_mem_iff_splitDots, hs]
            simp
          simp [joinDots, beforeLastDot, hm]
        · have hm : '.' ∈ cs := by
            rw [dot_mem_iff_splitDots, hs]
            simp
          rw [hs] at ih
          rw [show ((c :: r) :: r2 :: rs2).dropLast = (c :: r) :: (r2 :: rs2).dropLast from rfl]
          rw [show (r :: r2 :: rs2).dropLast = r :: (r2 :: rs2).dropLast from rfl] at ih
          rcases hd : (r2 :: rs2).dropLast with _ | ⟨d, ds⟩ <;>
            · rw [hd] at ih
              rw [joinDots_cons_first, ih]
              simp [beforeLastDot, hm]

end CFH

namespace CFH

/-! ### Claim C4: createUniqueKey -/

/-- C4 counterexample. For the dotless file name `photo` the claim predicts
the default extension `jpg` (key `5-photo.jpg` at timestamp 5 with
`useFileName = true`), but the code pops the whole name as the extension and
leaves an empty base name: the key is `5-.photo`, whose extension is not
`jpg`. -/
theorem createUniqueKey_claim_cex :
    createUniqueKey (jstr "photo") true 5 (jstr "abcdefgh") = jstr "5-.photo"
    ∧ createUniqueKey (jstr "photo") true 5 (jstr "abcdefgh")
        ≠ natChars 5 ++ '-' :: (jstr "photo" ++ '.' :: jstr "jpg")
    ∧ afterLastDot (createUniqueKey (jstr "photo") true 5 (jstr "abcdefgh"))
        ≠ jstr "jpg" := by
  refine ⟨by decide, by decide, by decide⟩

/-- C4 as amended. The key is
`{timestamp}-{keyPart}.{extension}` where the extension is the segment of
the file name after the last `.` (for a dotless name the whole name), with
`jpg` substituted exactly when that segment is empty; the key part is
everything before the last `.` (empty for a dotless name) when
`useFileName` is true, else the first 8 characters of the random UUID. -/
theorem createUniqueKey_amended (fileName : JStr) (useFileName : Bool)
    (timestamp : Nat) (uuid : JStr) :
    createUniqueKey fileName useFileName timestamp uuid =
      natChars timestamp ++ '-' ::
        ((if useFileName then beforeLastDot fileName else uuid.take 8) ++ '.' ::
          (if afterLastDot fileName = [] then jstr "jpg" else afterLastDot fileName)) := by
  unfold createUniqueKey
  rw [splitDots_getLastD, joinDots_dropLast_splitDots]

end CFH

namespace CFH

/-! ### JSON serialization size (model of JSON.stringify on flat string
records) -/

/-- Lowercase hexadecimal digit. -/
def hexDigit (n : Nat) : Char :=
  if n < 10 then Char.ofNat (48 + n) else Char.ofNat (87 + n)

/-- Model of the JSON escaping of a single character inside a string
literal. -/
def jsonEscapeChar (c : Char) : JStr :=
  if c = '"' then ['\\', '"']
  else if c = '\\' then ['\\', '\\']
  else if c = '\x08' then ['\\', 'b']
  else if c = '\x09' then ['\\', 't']
  else if c = '\x0a' then ['\\', 'n']
  else if c = '\x0c' then ['\\', 'f']
  else if c = '\x0d' then ['\\', 'r']
  else if c.toNat < 32 then
    ['\\', 'u', '0', '0', hexDigit (c.toNat / 16), hexDigit (c.toNat % 16)]
  else [c]

/-- JSON escaping of a whole string. -/
def jsonEscape : JStr → JStr
  | [] => []
  | c :: cs => jsonEscapeChar c ++ jsonEscape cs

/-- A JSON string literal: the escaped string in double quotes. -/
def jsonQuote (s : JStr) : JStr := '"' :: (jsonEscape s ++ ['"'])

/-- Model of `Array.prototype.join(',')`. -/
def joinComma : List JStr → JStr
  | [] => []
  | [x] => x
  | x :: xs => x ++ ',' :: joinComma xs

/-- Model of `JSON.stringify` on a flat string-keyed record (fields in
insertion order). -/
def jsonStringify (fields : List (JStr × JStr)) : JStr :=
  '\x7b' :: (joinComma (fields.map fun p => jsonQuote p.1 ++ ':' :: jsonQuote p.2) ++ ['\x7d'])

/-- Embedding of `CFR2.validateMetadata` with `MAX_METADATA_SIZE = 8192`:
errors exactly when the serialized record is strictly larger than 8192. -/
def validateMetadata (metadata : List (JStr × JStr)) : Except JStr Unit :=
  let metadataSize := (jsonStringify metadata).length
  if metadataSize > 8192 then
    .error (jstr "Metadata size (" ++ natChars metadataSize ++
      jstr " bytes) exceeds limit of " ++ natChars 8192 ++ jstr " bytes")
  else .ok ()

/-- JavaScript `v || d` for an optional string: the default replaces a
missing or empty (falsy) value. -/
def jsOrDefault (v : Option JStr) (d : JStr) : JStr :=
  match v with
  | some s => if s = [] then d else s
  | none => d

/-- Embedding of `CloudflareHelper.CustomMetadata`: the file's name, size
and MIME type plus the optional fields. -/
structure CustomMetadata where
  fileName : JStr
  fileSize : Nat
  fileType : JStr
  userId : Option JStr := none
  category : Option JStr := none
  processed : Option JStr := none
  thumbnailGenerated : Option JStr := none

/-- The record `CFR2.setCustomMetadata` builds before validating it;
`new Date().toISOString()` is the nondeterministic `now` parameter. -/
def shapedCustomMetadata (m : CustomMetadata) (now : JStr) : List (JStr × JStr) :=
  [(jstr "originalFileName", m.fileName),
   (jstr "uploadedBy", jsOrDefault m.userId (jstr "anonymous")),
   (jstr "uploadedAt", now),
   (jstr "fileSize", natChars m.fileSize),
   (jstr "mimeType", m.fileType),
   (jstr "category", jsOrDefault m.category (jstr "general")),
   (jstr "processed", jsOrDefault m.processed (jstr "false")),
   (jstr "thumbnailGenerated", jsOrDefault m.thumbnailGenerated (jstr "false"))]

/-- Embedding of `CFR2.setCustomMetadata`: builds the fixed-shape record and
validates its serialized size. -/
def setCustomMetadata (m : CustomMetadata) (now : JStr) :
    Except JStr (List (JStr × JStr)) :=
  let customMetadata := shapedCustomMetadata m now
  match validateMetadata customMetadata with
  | .error e => .error e
  | .ok _ => .ok customMetadata

/-- Embedding of the `R2HTTPMetadata` fields `setHttpMetadata` reads. -/
structure R2HTTPMetadata where
  contentType : Option JStr := none
  cacheControl : Option JStr := none
  contentDisposition : Option JStr := none
  contentLanguage : Option JStr := none
  contentEncoding : Option JStr := none

/-- One `if (metadata.field) { httpMetadata[key] = metadata.field }` step:
the field is copied only when truthy (present and non-empty). -/
def addIfTruthy (h : List (JStr × JStr)) (k : JStr) (v : Option JStr) :
    List (JStr × JStr) :=
  match v with
  | some s => if s = [] then h else h ++ [(k, s)]
  | none => h

/-- Embedding of `CFR2.setHttpMetadata`: `contentType` defaulted to
`application/octet-stream`, the four optional fields copied through only if
truthy.  Note: no size validation is performed here. -/
def setHttpMetadata (metadata : R2HTTPMetadata) : List (JStr × JStr) :=
  let h0 := [(jstr "contentType",
    jsOrDefault metadata.contentType (jstr "application/octet-stream"))]
  let h1 := addIfTruthy h0 (jstr "cacheControl") metadata.cacheControl
  let h2 := addIfTruthy h1 (jstr "contentDisposition") metadata.contentDisposition
  let h3 := addIfTruthy h2 (jstr "contentLanguage") metadata.contentLanguage
  addIfTruthy h3 (jstr "contentEncoding") metadata.contentEncoding

/-- First field of a record under a key (record access `r[k]`). -/
def fieldGet (r : List (JStr × JStr)) (k : JStr) : Option JStr :=
  match r with
  | [] => none
  | p :: t => if p.1 = k then some p.2 else fieldGet t k

end CFH


namespace CFH

/-! ### Claim C6: setCustomMetadata shape and size validation -/

/-- `fieldGet` skips an entry with a different key. -/
theorem fieldGet_cons_ne (a b v : JStr) (t : List (JStr × JStr)) (h : a ≠ b) :
    fieldGet ((a, v) :: t) b = fieldGet t b := by
  simp [fieldGet, h]

/-- `fieldGet` returns the value of a matching head entry. -/
theorem fieldGet_cons_eq (a v : JStr) (t : List (JStr × JStr)) :
    fieldGet ((a, v) :: t) a = some v := by
  simp [fieldGet]

/-- Closed form of `setCustomMetadata`: the size-limit error exactly when
the serialized record is strictly larger than 8192, the shaped record
otherwise. -/
theorem setCustomMetadata_eq (m : CustomMetadata) (now : JStr) :
    setCustomMetadata m now =
      if 8192 < (jsonStringify (shapedCustomMetadata m now)).length then
        .error (jstr "Metadata size ("
          ++ natChars (jsonStringify (shapedCustomMetadata m now)).length
          ++ jstr " bytes) exceeds limit of " ++ natChars 8192 ++ jstr " bytes")
      else .ok (shapedCustomMetadata m now) := by
  rw [setCustomMetadata, validateMetadata]
  by_cases hsz : 8192 < (jsonStringify (shapedCustomMetadata m now)).length
  · simp only [gt_iff_lt, if_pos hsz]
  · simp only [gt_iff_lt, if_neg hsz]

/-- C6. `setCustomMetadata` succeeds exactly when the serialized record is
at most 8192 bytes (so exactly 8192 succeeds and the size-limit error is
raised precisely above 8192), and a successful result carries exactly the
eight fixed keys with `uploadedBy`, `category`, `processed` and
`thumbnailGenerated` defaulting to `anonymous`, `general`, `false` and
`false`. -/
theorem setCustomMetadata_spec (m : CustomMetadata) (now : JStr) :
    ((setCustomMetadata m now).isOk ↔
      (jsonStringify (shapedCustomMetadata m now)).length ≤ 8192)
    ∧ (∀ r, setCustomMetadata m now = .ok r →
        r.map Prod.fst =
          [jstr "originalFileName", jstr "uploadedBy", jstr "uploadedAt",
           jstr "fileSize", jstr "mimeType", jstr "category",
           jstr "processed", jstr "thumbnailGenerated"]
        ∧ (m.userId = none → fieldGet r (jstr "uploadedBy") = some (jstr "anonymous"))
        ∧ (m.category = none → fieldGet r (jstr "category") = some (jstr "general"))
        ∧ (m.processed = none → fieldGet r (jstr "processed") = some (jstr "false"))
        ∧ (m.thumbnailGenerated = none →
            fieldGet r (jstr "thumbnailGenerated") = some (jstr "false"))) := by
  by_cases hsz : 8192 < (jsonStringify (shapedCustomMetadata m now)).length
  · constructor
    · rw [setCustomMetadata_eq, if_pos hsz]
      constructor
      · intro h
        exact Bool.noConfusion h
      · intro hle
        exact absurd hle (by omega)
    · intro r hr
      rw [setCustomMetadata_eq, if_pos hsz] at hr
      cases hr
  · constructor
    · rw [setCustomMetadata_eq, if_neg hsz]
      constructor
      · intro _
        omega
      · intro _
        rfl
    · intro r hr
      rw [setCustomMetadata_eq, if_neg hsz] at hr
      cases hr
      refine ⟨by simp [shapedCustomMetadata], fun hu => ?_, fun hc => ?_,
        fun hp => ?_, fun ht => ?_⟩
      · rw [shapedCustomMetadata, fieldGet_cons_ne _ _ _ _ (by decide),
          fieldGet_cons_eq]
        simp [jsOrDefault, hu]
      · rw [shapedCustomMetadata, fieldGet_cons_ne _ _ _ _ (by decide),
          fieldGet_cons_ne _ _ _ _ (by decide), fieldGet_cons_ne _ _ _ _ (by decide),
          fieldGet_cons_ne _ _ _ _ (by decide), fieldGet_cons_ne _ _ _ _ (by decide),
          fieldGet_cons_eq]
        simp [jsOrDefault, hc]
      · rw [shapedCustomMetadata, fieldGet_cons_ne _ _ _ _ (by decide),
          fieldGet_cons_ne _ _ _ _ (by decide), fieldGet_cons_ne _ _ _ _ (by decide),
          fieldGet_cons_ne _ _ _ _ (by decide), fieldGet_cons_ne _ _ _ _ (by decide),
          fieldGet_cons_ne _ _ _ _ (by decide), fieldGet_cons_eq]
        simp [jsOrDefault, hp]
      · rw [shapedCustomMetadata, fieldGet_cons_ne _ _ _ _ (by decide),
          fieldGet_cons_ne _ _ _ _ (by decide), fieldGet_cons_ne _ _ _ _ (by decide),
          fieldGet_cons_ne _ _ _ _ (by decide), fieldGet_cons_ne _ _ _ _ (by decide),
          fieldGet_cons_ne _ _ _ _ (by decide), fieldGet_cons_ne _ _ _ _ (by decide),
          fieldGet_cons_eq]
        simp [jsOrDefault, ht]

set_option maxRecDepth 8000 in
/-- Witness for C6: a small concrete metadata record is accepted and shows
the fixed keys and the `uploadedBy` default. -/
theorem setCustomMetadata_spec_witness :
    ∃ r, setCustomMetadata
        { fileName := jstr "a.txt", fileSize := 123, fileType := jstr "text/plain" }
        (jstr "2024-01-01T00:00:00.000Z") = .ok r
      ∧ r.map Prod.fst =
          [jstr "originalFileName", jstr "uploadedBy", jstr "uploadedAt",
           jstr "fileSize", jstr "mimeType", jstr "category",
           jstr "processed", jstr "thumbnailGenerated"]
      ∧ fieldGet r (jstr "uploadedBy") = some (jstr "anonymous") := by
  have h := setCustomMetadata_spec
    { fileName := jstr "a.txt", fileSize := 123, fileType := jstr "text/plain" }
    (jstr "2024-01-01T00:00:00.000Z")
  have hok : (setCustomMetadata
      { fileName := jstr "a.txt", fileSize := 123, fileType := jstr "text/plain" }
      (jstr "2024-01-01T00:00:00.000Z")).isOk = true := h.1.mpr (by decide)
  rcases hset : setCustomMetadata
      { fileName := jstr "a.txt", fileSize := 123, fileType := jstr "text/plain" }
      (jstr "2024-01-01T00:00:00.000Z") with e | r
  · rw [hset] at hok
    cases hok
  · obtain ⟨hkeys, hub, _, _, _⟩ := h.2 r hset
    exact ⟨r, rfl, hkeys, hub rfl⟩

end CFH

namespace CFH

/-! ### Claim C7: the size of setHttpMetadata records -/

/-- The escaped length of a string inside a JSON literal. -/
def escLen (s : JStr) : Nat := (jsonEscape s).length

/-- The escaped length of an optional string (0 when absent). -/
def optEscLen : Option JStr → Nat
  | some s => escLen s
  | none => 0

/-- Length of a comma join: the segment lengths plus the separators. -/
theorem joinComma_length (l : List JStr) :
    (joinComma l).length = (l.map List.length).sum + (l.length - 1) := by
  match l with
  | [] => simp [joinComma]
  | [x] => simp [joinComma]
  | x :: y :: t =>
    have ih := joinComma_length (y :: t)
    simp only [joinComma, List.length_append, List.length_cons, ih,
      List.map_cons, List.sum_cons, List.length_map]
    simp
    omega

/-- Exact serialized length of a flat record: braces, per-field quotes,
colons and escaped contents, and the separating commas. -/
theorem jsonStringify_length (fields : List (JStr × JStr)) :
    (jsonStringify fields).length =
      2 + ((fields.map fun p => escLen p.1 + escLen p.2 + 5).sum
        + (fields.length - 1)) := by
  have hmap : (fields.map fun p => jsonQuote p.1 ++ ':' :: jsonQuote p.2).map List.length
      = fields.map fun p => escLen p.1 + escLen p.2 + 5 := by
    rw [List.map_map]
    refine List.map_congr_left fun p _ => ?_
    simp [jsonQuote, escLen]
    omega
  simp only [jsonStringify, List.length_cons, List.length_append, joinComma_length,
    hmap, List.length_map]
  simp
  omega

/-- The per-field weight used to bound record sizes from above. -/
def fieldsWeight (fields : List (JStr × JStr)) : Nat :=
  (fields.map fun p => escLen p.1 + escLen p.2 + 6).sum

/-- The serialized length of a record is bounded by its field weights. -/
theorem jsonStringify_length_le (fields : List (JStr × JStr)) :
    (jsonStringify fields).length ≤ 2 + fieldsWeight fields := by
  rw [jsonStringify_length, fieldsWeight]
  have hsum : (fields.map fun p => escLen p.1 + escLen p.2 + 6).sum
      = (fields.map fun p => escLen p.1 + escLen p.2 + 5).sum + fields.length := by
    induction fields with
    | nil => simp
    | cons p t ih =>
      simp [ih]
      omega
  omega

/-- Appending one optional field adds at most its key weight and escaped
value length. -/
theorem fieldsWeight_addIfTruthy (h : List (JStr × JStr)) (k : JStr) (v : Option JStr) :
    fieldsWeight (addIfTruthy h k v) ≤ fieldsWeight h + (escLen k + 6 + optEscLen v) := by
  rcases v with _ | s
  · simp [addIfTruthy, optEscLen]
  · by_cases hs : s = []
    · simp [addIfTruthy, hs]
    · simp [addIfTruthy, hs, fieldsWeight, optEscLen]
      omega

/-- `a` needs no JSON escaping. -/
theorem jsonEscape_replicate_a (n : Nat) :
    jsonEscape (List.replicate n 'a') = List.replicate n 'a' := by
  induction n with
  | zero => rfl
  | succ n ih =>
    rw [List.replicate_succ]
    show jsonEscapeChar 'a' ++ jsonEscape (List.replicate n 'a') = _
    rw [ih, show jsonEscapeChar 'a' = ['a'] from by decide]
    rfl

/-- C7 counterexample. `setHttpMetadata` performs no size validation: with a
`cacheControl` value of 8200 characters it returns a record whose serialized
size is 8260 bytes, beyond the claimed 8192-byte bound, and raises no
error. -/
theorem setHttpMetadata_claim_cex :
    8192 < (jsonStringify (setHttpMetadata
      { cacheControl := some (List.replicate 8200 'a') })).length := by
  have hesc : escLen (List.replicate 8200 'a') = 8200 := by
    rw [escLen, jsonEscape_replicate_a, List.length_replicate]
  have hset : setHttpMetadata { cacheControl := some (List.replicate 8200 'a') }
      = [(jstr "contentType", jstr "application/octet-stream"),
         (jstr "cacheControl", List.replicate 8200 'a')] := by
    have hne : (List.replicate 8200 'a' : JStr) ≠ [] := by
      intro hh
      have hl := List.length_replicate 8200 'a'
      rw [hh] at hl
      exact absurd hl (by decide)
    simp only [setHttpMetadata, addIfTruthy, jsOrDefault, if_neg hne]
    rfl
  rw [hset, jsonStringify_length]
  have h1 : escLen (jstr "contentType") = 11 := by decide
  have h2 : escLen (jstr "application/octet-stream") = 24 := by decide
  have h3 : escLen (jstr "cacheControl") = 12 := by decide
  simp only [List.map_cons, List.map_nil, List.sum_cons, List.sum_nil,
    List.length_cons, List.length_nil, h1, h2, h3, hesc]
  omega

/-- C7 as amended. `setHttpMetadata` applies no size check, so the
8192-byte bound only holds conditionally: whenever the escaped lengths of
the contentType value (or its `application/octet-stream` default) and of the
supplied optional field values total at most 8089 bytes, the serialized
record is at most 8192 bytes; larger inputs (see the counterexample) exceed
the bound without any error. -/
theorem setHttpMetadata_size_bound (m : R2HTTPMetadata)
    (h : escLen (jsOrDefault m.contentType (jstr "application/octet-stream"))
        + optEscLen m.cacheControl + optEscLen m.contentDisposition
        + optEscLen m.contentLanguage + optEscLen m.contentEncoding ≤ 8089) :
    (jsonStringify (setHttpMetadata m)).length ≤ 8192 := by
  have hk2 : escLen (jstr "cacheControl") = 12 := by decide
  have hk3 : escLen (jstr "contentDisposition") = 18 := by decide
  have hk4 : escLen (jstr "contentLanguage") = 15 := by decide
  have hk5 : escLen (jstr "contentEncoding") = 15 := by decide
  have h0 : fieldsWeight [(jstr "contentType",
      jsOrDefault m.contentType (jstr "application/octet-stream"))]
      = 17 + escLen (jsOrDefault m.contentType (jstr "application/octet-stream")) := by
    have hk1 : escLen (jstr "contentType") = 11 := by decide
    simp [fieldsWeight, hk1]
    omega
  have t1 := fieldsWeight_addIfTruthy
    [(jstr "contentType", jsOrDefault m.contentType (jstr "application/octet-stream"))]
    (jstr "cacheControl") m.cacheControl
  have t2 := fieldsWeight_addIfTruthy
    (addIfTruthy
      [(jstr "contentType", jsOrDefault m.contentType (jstr "application/octet-stream"))]
      (jstr "cacheControl") m.cacheControl)
    (jstr "contentDisposition") m.contentDisposition
  have t3 := fieldsWeight_addIfTruthy
    (addIfTruthy (addIfTruthy
      [(jstr "contentType", jsOrDefault m.contentType (jstr "application/octet-stream"))]
      (jstr "cacheControl") m.cacheControl)
      (jstr "contentDisposition") m.contentDisposition)
    (jstr "contentLanguage") m.contentLanguage
  have t4 := fieldsWeight_addIfTruthy
    (addIfTruthy (addIfTruthy (addIfTruthy
      [(jstr "contentType", jsOrDefault m.contentType (jstr "application/octet-stream"))]
      (jstr "cacheControl") m.cacheControl)
      (jstr "contentDisposition") m.contentDisposition)
      (jstr "contentLanguage") m.contentLanguage)
    (jstr "contentEncoding") m.contentEncoding
  have hset : setHttpMetadata m
      = addIfTruthy (addIfTruthy (addIfTruthy (addIfTruthy
          [(jstr "contentType",
            jsOrDefault m.contentType (jstr "application/octet-stream"))]
          (jstr "cacheControl") m.cacheControl)
          (jstr "contentDisposition") m.contentDisposition)
          (jstr "contentLanguage") m.contentLanguage)
          (jstr "contentEncoding") m.contentEncoding := rfl
  refine le_trans (jsonStringify_length_le _) ?_
  rw [hset]
  omega

/-- Witness for the amended C7 bound: the empty metadata input (default
contentType only) satisfies the input bound and yields a record within 8192
bytes. -/
theorem setHttpMetadata_size_bound_witness :
    (jsonStringify (setHttpMetadata {})).length ≤ 8192 :=
  setHttpMetadata_size_bound {} (by decide)

end CFH

namespace CFH

/-! ### Bucket listing and pagination (CFR2.listBucketData)

The `while (truncated && cursor)` loop of `listBucketData` is embedded as a
fuel-indexed total function `listLoop`.  The JavaScript condition tests the
cursor for truthiness: the loop also exits when the cursor is the (falsy)
empty string, returning the partial list with that cursor and the current
truncation flag.  The claims quantify over sufficient fuel (C1) and show
the result stabilizes once the cursor chain ends (C9), which is the meaning
of termination for the unbounded source loop. -/

/-- An R2 object descriptor, identified by its key. -/
structure R2Object where
  key : String
deriving DecidableEq, Repr

/-- One page returned by `bucket.list`: object descriptors, the truncation
flag and the optional continuation cursor. -/
structure R2Objects where
  objects : List R2Object
  truncated : Bool
  cursor : Option String
deriving DecidableEq, Repr

/-- An R2 bucket binding, modelled by its `list` behavior under the fixed
options `listBucketData` threads through: the initial page and the page
returned for each cursor. -/
structure R2Bucket where
  listInit : R2Objects
  listCursor : String → R2Objects

/-- The cursor the loop keeps after seeing a page:
`truncated ? page.cursor : undefined` (both at entry and in the loop). -/
def contCursor (p : R2Objects) : Option String :=
  if p.truncated then p.cursor else none

/-- JavaScript truthiness of the optional cursor string: present and
non-empty. -/
def cursorTruthy : Option String → Bool
  | some c => c != ""
  | none => false

/-- The loop condition `truncated && cursor` evaluated at a page: the kept
cursor is truthy (when `truncated` is false the kept cursor is already
`none`). -/
def continuesFrom (p : R2Objects) : Bool :=
  cursorTruthy (contCursor p)

/-- The page fetched after page `p` when the loop continues from it (`p`
itself when the loop stops at `p`: no cursor, empty cursor or not
truncated). -/
def nextPage (b : R2Bucket) (p : R2Objects) : R2Objects :=
  match contCursor p with
  | some c => if c = "" then p else b.listCursor c
  | none => p

/-- The cursor chain of pages starting at `p`. -/
def pageFrom (b : R2Bucket) (p : R2Objects) : Nat → R2Objects
  | 0 => p
  | n + 1 => nextPage b (pageFrom b p n)

/-- The object descriptors of the pages fetched after `p`, in arrival
order. -/
def collectFrom (b : R2Bucket) (p : R2Objects) : Nat → List R2Object
  | 0 => []
  | n + 1 => (nextPage b p).objects ++ collectFrom b (nextPage b p) n

/-- Embedding of the pagination loop of `listBucketData`: while the state is
truncated with a truthy (non-empty) cursor, fetch the next page, push its
objects, and update `truncated`/`cursor`; on exit return the accumulated
objects, the current cursor and the current truncation flag. -/
def listLoop (b : R2Bucket) :
    Nat → List R2Object → Bool → Option String →
      List R2Object × Option String × Bool
  | 0, objs, truncated, cursor => (objs, cursor, truncated)
  | fuel + 1, objs, truncated, cursor =>
    match truncated, cursor with
    | true, some c =>
      if c = "" then (objs, some c, true)
      else
        let next := b.listCursor c
        listLoop b fuel (objs ++ next.objects) next.truncated
          (if next.truncated then next.cursor else none)
    | t, cur => (objs, cur, t)

/-- Length of the name with surrounding whitespace removed
(`bucketName.trim().length`). -/
def trimmedLength (s : String) : Nat :=
  ((s.toList.dropWhile Char.isWhitespace).reverse.dropWhile Char.isWhitespace).length

/-- Embedding of `CFR2.validateBucketName`: an empty (falsy) name and a
whitespace-only name are rejected. -/
def validateBucketName (bucketName : String) : Except String Unit :=
  if bucketName = "" then .error "Bucket name must be a non-empty string"
  else if trimmedLength bucketName = 0 then .error "Bucket name cannot be empty"
  else .ok ()

/-- Model of `getBinding`: the environment binding under the name, if
present. -/
def lookupBinding (env : List (String × R2Bucket)) (name : String) :
    Option R2Bucket :=
  match env with
  | [] => none
  | p :: t => if p.1 == name then some p.2 else lookupBinding t name

/-- Embedding of `CFR2.getBucket`: validates the name, then looks up the
binding (absent bindings yield `none`, not an error). -/
def getBucket (env : List (String × R2Bucket)) (name : String) :
    Except String (Option R2Bucket) :=
  match validateBucketName name with
  | .error e => .error e
  | .ok _ => .ok (lookupBinding env name)

/-- The result record of `listBucketData`. -/
structure BucketListResult where
  objects : List R2Object
  cursor : Option String
  hasMore : Bool
deriving DecidableEq, Repr

/-- Embedding of `CFR2.listBucketData`: validates the name, resolves the
bucket (error when absent), lists the initial page and runs the pagination
loop. -/
def listBucketData (env : List (String × R2Bucket)) (name : String)
    (fuel : Nat) : Except String BucketListResult :=
  match validateBucketName name with
  | .error e => .error e
  | .ok _ =>
    match getBucket env name with
    | .error e => .error e
    | .ok none => .error ("Bucket \x27" ++ name ++ "\x27 not found")
    | .ok (some bucket) =>
      let listed := bucket.listInit
      let truncated := listed.truncated
      let cursor := if truncated then listed.cursor else none
      let res := listLoop bucket fuel listed.objects truncated cursor
      .ok { objects := res.1, cursor := res.2.1, hasMore := res.2.2 }

/-- Stepping the chain start is the same as stepping the index. -/
theorem pageFrom_shift (b : R2Bucket) (p : R2Objects) (n : Nat) :
    pageFrom b p (n + 1) = pageFrom b (nextPage b p) n := by
  induction n with
  | zero => rfl
  | succ n ih =>
    show nextPage b (pageFrom b p (n + 1)) = nextPage b (pageFrom b (nextPage b p) n)
    rw [ih]

/-- A kept cursor is only present at a truncated page. -/
theorem truncated_of_contCursor (p : R2Objects) (c : String)
    (hc : contCursor p = some c) : p.truncated = true := by
  cases htr : p.truncated
  · rw [contCursor, htr] at hc
    simp at hc
  · rfl

/-- Core loop invariant: if the loop condition holds along the first `m`
pages of the chain from `p` and fails at page `m`, the loop (with at least
`m` fuel) returns the accumulator followed by the fetched pages in arrival
order, the cursor kept at the final page, and the final truncation flag. -/
theorem listLoop_go (b : R2Bucket) :
    ∀ (m fuel : Nat) (p : R2Objects) (acc : List R2Object),
    (∀ i, i < m → continuesFrom (pageFrom b p i) = true) →
    continuesFrom (pageFrom b p m) = false →
    m ≤ fuel →
    listLoop b fuel acc p.truncated (contCursor p) =
      (acc ++ collectFrom b p m, contCursor (pageFrom b p m),
       (pageFrom b p m).truncated) := by
  intro m
  induction m with
  | zero =>
    intro fuel p acc _ hstop _
    have hrhs : (acc ++ collectFrom b p 0, contCursor (pageFrom b p 0),
        (pageFrom b p 0).truncated) = (acc, contCursor p, p.truncated) := by
      simp [collectFrom, pageFrom]
    rw [hrhs]
    rw [continuesFrom, pageFrom] at hstop
    rcases hc : contCursor p with _ | c
    · cases fuel with
      | zero => rfl
      | succ f => cases ht : p.truncated <;> rfl
    · have ht : p.truncated = true := truncated_of_contCursor p c hc
      rw [hc, cursorTruthy] at hstop
      have hce : c = "" := by simpa using hstop
      subst hce
      rw [ht]
      cases fuel with
      | zero => rfl
      | succ f => rfl
  | succ m ih =>
    intro fuel p acc hcont hstop hfuel
    have h0 : continuesFrom p = true := by
      have := hcont 0 (Nat.succ_pos m)
      simpa [pageFrom] using this
    rw [continuesFrom] at h0
    rcases hc : contCursor p with _ | c
    · rw [hc, cursorTruthy] at h0
      cases h0
    · have ht : p.truncated = true := truncated_of_contCursor p c hc
      rw [hc, cursorTruthy] at h0
      have hcne : ¬ c = "" := by simpa using h0
      obtain ⟨f, rfl⟩ : ∃ f, fuel = f + 1 := ⟨fuel - 1, by omega⟩
      have hfm : m ≤ f := by omega
      have hq : nextPage b p = b.listCursor c := by
        simp [nextPage, hc, hcne]
      have hcont2 : ∀ i, i < m → continuesFrom (pageFrom b (b.listCursor c) i) = true := by
        intro i hi
        have hh := hcont (i + 1) (by omega)
        rw [pageFrom_shift, hq] at hh
        exact hh
      have hstop2 : continuesFrom (pageFrom b (b.listCursor c) m) = false := by
        have hh := hstop
        rw [pageFrom_shift, hq] at hh
        exact hh
      have ihh := ih f (b.listCursor c) (acc ++ (b.listCursor c).objects) hcont2 hstop2 hfm
      rw [ht]
      show (if c = "" then ((acc, some c, true) : List R2Object × Option String × Bool)
          else listLoop b f (acc ++ (b.listCursor c).objects) (b.listCursor c).truncated
            (if (b.listCursor c).truncated then (b.listCursor c).cursor else none))
        = (acc ++ collectFrom b p (m + 1), contCursor (pageFrom b p (m + 1)),
           (pageFrom b p (m + 1)).truncated)
      rw [if_neg hcne]
      rw [show (if (b.listCursor c).truncated then (b.listCursor c).cursor else none)
        = contCursor (b.listCursor c) from rfl]
      rw [ihh]
      rw [pageFrom_shift, hq]
      rw [show collectFrom b p (m + 1)
        = (nextPage b p).objects ++ collectFrom b (nextPage b p) m from rfl, hq]
      simp [List.append_assoc]

/-- Closed form of `listBucketData` when the loop condition of the bound
bucket holds for exactly `n` continuations and the fuel suffices. -/
theorem listBucketData_closed (env : List (String × R2Bucket)) (name : String)
    (b : R2Bucket) (n fuel : Nat)
    (hv : validateBucketName name = .ok ())
    (hb : lookupBinding env name = some b)
    (hcont : ∀ i, i < n → continuesFrom (pageFrom b b.listInit i) = true)
    (hstop : continuesFrom (pageFrom b b.listInit n) = false)
    (hfuel : n ≤ fuel) :
    listBucketData env name fuel =
      .ok { objects := b.listInit.objects ++ collectFrom b b.listInit n,
            cursor := contCursor (pageFrom b b.listInit n),
            hasMore := (pageFrom b b.listInit n).truncated } := by
  have hloop := listLoop_go b n fuel b.listInit b.listInit.objects hcont hstop hfuel
  rw [show contCursor b.listInit
    = (if b.listInit.truncated then b.listInit.cursor else none) from rfl] at hloop
  simp only [listBucketData, getBucket, hv, hb]
  rw [hloop]

end CFH

namespace CFH

/-! ### Claims C1 and C9: pagination merge and termination -/

/-- C1. For a bucket name bound to a bucket, when the loop condition
`truncated && cursor` (cursor truthy, i.e. present and non-empty) holds for
exactly `n` steps of the cursor chain and then fails, `listBucketData`
(with enough fuel) returns the objects of the initial page followed by
those of every subsequently fetched page in arrival order, together with
the cursor kept at the final page and its truncation flag as `hasMore`; in
particular, when the final page is not truncated the returned cursor is
absent and `hasMore` is false. -/
theorem listBucketData_paginates (env : List (String × R2Bucket)) (name : String)
    (b : R2Bucket) (n fuel : Nat)
    (hv : validateBucketName name = .ok ())
    (hb : lookupBinding env name = some b)
    (hcont : ∀ i, i < n → continuesFrom (pageFrom b b.listInit i) = true)
    (hstop : continuesFrom (pageFrom b b.listInit n) = false)
    (hfuel : n ≤ fuel) :
    listBucketData env name fuel =
      .ok { objects := b.listInit.objects ++ collectFrom b b.listInit n,
            cursor := contCursor (pageFrom b b.listInit n),
            hasMore := (pageFrom b b.listInit n).truncated }
    ∧ ((pageFrom b b.listInit n).truncated = false →
      listBucketData env name fuel =
        .ok { objects := b.listInit.objects ++ collectFrom b b.listInit n,
              cursor := none, hasMore := false }) := by
  have h := listBucketData_closed env name b n fuel hv hb hcont hstop hfuel
  refine ⟨h, fun hf => ?_⟩
  rw [h, show contCursor (pageFrom b b.listInit n) = none from by
    rw [contCursor, hf]
    rfl, hf]

/-- A three-page example bucket: pages of sizes 2, 2 and 1 with
truncated = true, true, false. -/
def bucketEx : R2Bucket where
  listInit := { objects := [⟨"o1"⟩, ⟨"o2"⟩], truncated := true, cursor := some "c1" }
  listCursor := fun c =>
    if c = "c1" then
      { objects := [⟨"o3"⟩, ⟨"o4"⟩], truncated := true, cursor := some "c2" }
    else if c = "c2" then
      { objects := [⟨"o5"⟩], truncated := false, cursor := none }
    else
      { objects := [], truncated := false, cursor := none }

/-- An environment binding the example bucket. -/
def envEx : List (String × R2Bucket) := [("IMAGES", bucketEx)]

/-- Witness for C1: three pages of sizes 2, 2, 1 with
truncated = true, true, false merge into 5 objects with an absent cursor and
`hasMore = false`. -/
theorem listBucketData_paginates_witness :
    listBucketData envEx "IMAGES" 2 =
      .ok { objects := [⟨"o1"⟩, ⟨"o2"⟩, ⟨"o3"⟩, ⟨"o4"⟩, ⟨"o5"⟩],
            cursor := none, hasMore := false } := by
  have h := listBucketData_paginates envEx "IMAGES" bucketEx 2 2 rfl rfl
    (by decide) (by decide) (by decide)
  exact (h.2 (by decide)).trans (congrArg Except.ok (by decide))

/-- C9. When the loop condition `truncated && cursor` fails at some point
of the cursor chain (a page that is not truncated, has no cursor, or has
the falsy empty-string cursor), the pagination loop terminates: the result
of `listBucketData` is stable for every sufficient fuel bound. -/
theorem listBucketData_terminates (env : List (String × R2Bucket)) (name : String)
    (b : R2Bucket)
    (hv : validateBucketName name = .ok ())
    (hb : lookupBinding env name = some b)
    (hex : ∃ n, continuesFrom (pageFrom b b.listInit n) = false) :
    ∃ N, ∀ fuel, N ≤ fuel →
      listBucketData env name fuel = listBucketData env name N := by
  refine ⟨Nat.find hex, fun fuel hf => ?_⟩
  have hstop := Nat.find_spec hex
  have hcont : ∀ i, i < Nat.find hex → continuesFrom (pageFrom b b.listInit i) = true := by
    intro i hi
    have := Nat.find_min hex hi
    simpa using this
  rw [listBucketData_closed env name b (Nat.find hex) fuel hv hb hcont hstop (by omega),
    listBucketData_closed env name b (Nat.find hex) (Nat.find hex) hv hb hcont hstop
      (le_refl _)]

/-- Witness for C9: the example bucket chain stops after two continuations,
so the listing stabilizes. -/
theorem listBucketData_terminates_witness :
    ∃ N, ∀ fuel, N ≤ fuel →
      listBucketData envEx "IMAGES" fuel = listBucketData envEx "IMAGES" N :=
  listBucketData_terminates envEx "IMAGES" bucketEx rfl rfl ⟨2, by decide⟩

end CFH
